import Mathlib

/-!
Verification of the Website-Content-Search backend (`backend/app/main.py`).

Python strings are modelled as `List Char`.  The regex character classes
`\w` and `\s` are modelled by `isWordChar` / `isSpaceChar` (alphanumeric or
underscore, resp. whitespace); the two classes are disjoint, as in the
source regexes `\w+|[^\w\s]` and `\S+\s*`.
-/

/-- Python strings, modelled as lists of characters. -/
abbrev Str := List Char

/-- Model of the regex class `\w`: alphanumeric or underscore. -/
def isWordChar (c : Char) : Bool := c.isAlphanum || c = '_'

/-- Model of the regex class `\s`: whitespace. -/
def isSpaceChar (c : Char) : Bool := c.isWhitespace

theorem not_space_of_word {c : Char} (h : isWordChar c = true) : isSpaceChar c = false := by
  cases hs : isSpaceChar c
  · rfl
  · exfalso
    have hc : c = ' ' ∨ c = '\t' ∨ c = '\r' ∨ c = '\n' := by
      simp only [isSpaceChar, Char.isWhitespace, Bool.or_eq_true, decide_eq_true_eq] at hs
      tauto
    rcases hc with h1 | h1 | h1 | h1 <;> (subst h1; exact absurd h (by decide))

/--
`tokenize_aux s inWord` counts the matches of `\w+|[^\w\s]` in `s`, where
`inWord` records whether the previous character belonged to a `\w+` run.
`tokenize_len s = tokenize_aux s false` models
`len(re.findall(r"\w+|[^\w\s]", text))` (source: `tokenize_len`).
-/
def tokenize_aux : Str → Bool → Nat
  | [], _ => 0
  | c :: rest, inWord =>
    if isWordChar c then (if inWord then 0 else 1) + tokenize_aux rest true
    else if isSpaceChar c then tokenize_aux rest false
    else 1 + tokenize_aux rest false

/-- Source `tokenize_len`: number of word-run / punctuation tokens. -/
def tokenize_len (s : Str) : Nat := tokenize_aux s false

/-- The in-word state after scanning `s` starting from state `b`. -/
def stateAfter (b : Bool) (s : Str) : Bool := s.foldl (fun _ c => isWordChar c) b

/-- Python `str.strip()` from the left only. -/
def dropLead (s : Str) : Str := s.dropWhile isSpaceChar

/-- Python `str.strip()`: drop leading and trailing whitespace. -/
def stripChars (s : Str) : Str :=
  ((s.dropWhile isSpaceChar).reverse.dropWhile isSpaceChar).reverse

/--
One pass of `re.sub(r"\s+", " ", s)`: every maximal whitespace run is
replaced with a single space; `inRun` records whether the previous
character was whitespace.
-/
def collapseWsAux : Str → Bool → Str
  | [], _ => []
  | c :: rest, inRun =>
    if isSpaceChar c then
      if inRun then collapseWsAux rest true else ' ' :: collapseWsAux rest true
    else c :: collapseWsAux rest false

/-- Source `normalize_space`: `re.sub(r"\s+", " ", s).strip()`. -/
def normalize_space (s : Str) : Str := stripChars (collapseWsAux s false)

/--
Fuelled splitter for `re.findall(r"\S+\s*", snip)`: each fragment is a
maximal non-space run together with the whitespace that follows it;
leading whitespace of the input belongs to no fragment.
-/
def fragsFuel : Nat → Str → List Str
  | 0, _ => []
  | n + 1, s =>
    match s with
    | [] => []
    | c :: cs =>
      if isSpaceChar c then fragsFuel n cs
      else
        ((c :: cs).takeWhile (fun x => ! isSpaceChar x) ++
            ((c :: cs).dropWhile (fun x => ! isSpaceChar x)).takeWhile isSpaceChar) ::
          fragsFuel n (((c :: cs).dropWhile (fun x => ! isSpaceChar x)).dropWhile isSpaceChar)

/-- `re.findall(r"\S+\s*", snip)` (source: `chunk_by_token_limit`, word split). -/
def frags (s : Str) : List Str := fragsFuel (s.length + 1) s

/-- `" ".join(buf)`. -/
def spaceJoin : List Str → Str
  | [] => []
  | [x] => x
  | x :: y :: l => x ++ ' ' :: spaceJoin (y :: l)

/--
Inner loop state update of the oversized-block split in
`chunk_by_token_limit` (state: emitted chunks, current word buffer `tmp`,
its token count `tmp_tokens`).
-/
def splitStep (limit : Nat) (st : List Str × List Str × Nat) (w : Str) :
    List Str × List Str × Nat :=
  let wt := tokenize_len w
  if limit < st.2.2 + wt ∧ st.2.1 ≠ [] then
    (st.1 ++ [stripChars (List.flatten st.2.1)], [w], wt)
  else
    (st.1, st.2.1 ++ [w], st.2.2 + wt)

/--
The oversized-block branch of `chunk_by_token_limit`: split the snippet
into `\S+\s*` word fragments and pack them greedily into sub-chunks.
-/
def splitOversized (limit : Nat) (snip : Str) : List Str :=
  let st := (frags snip).foldl (splitStep limit) ([], [], 0)
  if st.2.1 ≠ [] then st.1 ++ [stripChars (List.flatten st.2.1)] else st.1

/--
Outer loop state update of `chunk_by_token_limit` (state: emitted chunks,
accumulation buffer `buf`, its token count `buf_tokens`).
-/
def chunkStep (limit : Nat) (st : List Str × List Str × Nat) (snip : Str) :
    List Str × List Str × Nat :=
  let t := tokenize_len snip
  if limit < t then
    (st.1 ++ splitOversized limit snip, st.2.1, st.2.2)
  else if limit < st.2.2 + t ∧ st.2.1 ≠ [] then
    (st.1 ++ [stripChars (spaceJoin st.2.1)], [snip], t)
  else
    (st.1, st.2.1 ++ [snip], st.2.2 + t)

/-- Source `chunk_by_token_limit`. -/
def chunk_by_token_limit (snippets : List Str) (limit : Nat) : List Str :=
  let st := snippets.foldl (chunkStep limit) ([], [], 0)
  if st.2.1 ≠ [] then st.1 ++ [stripChars (spaceJoin st.2.1)] else st.1

/-! ### Tokenizer lemmas -/

theorem not_word_of_space {c : Char} (h : isSpaceChar c = true) : isWordChar c = false := by
  cases hw : isWordChar c
  · rfl
  · rw [not_space_of_word hw] at h
    exact absurd h (by simp)

theorem stateAfter_cons (b : Bool) (c : Char) (s : Str) :
    stateAfter b (c :: s) = stateAfter (isWordChar c) s := rfl

theorem tokenize_aux_append (xs ys : Str) (b : Bool) :
    tokenize_aux (xs ++ ys) b = tokenize_aux xs b + tokenize_aux ys (stateAfter b xs) := by
  induction xs generalizing b with
  | nil => simp [tokenize_aux, stateAfter]
  | cons c cs ih =>
    rw [List.cons_append]
    cases hw : isWordChar c
    · cases hs : isSpaceChar c
      · simp only [tokenize_aux, hw, hs, Bool.false_eq_true, if_false, stateAfter_cons, ih,
          List.append_eq]
        omega
      · simp only [tokenize_aux, hw, hs, Bool.false_eq_true, if_false, if_true, stateAfter_cons,
          ih, List.append_eq]
    · simp only [tokenize_aux, hw, if_true, stateAfter_cons, ih, List.append_eq]
      omega

theorem tokenize_aux_true_le (ys : Str) : tokenize_aux ys true ≤ tokenize_aux ys false := by
  induction ys with
  | nil => simp [tokenize_aux]
  | cons c cs _ =>
    by_cases hw : isWordChar c
    · simp only [tokenize_aux, hw, if_true]
      omega
    · by_cases hs : isSpaceChar c <;> simp [tokenize_aux, hw, hs]

theorem tokenize_aux_le_len (ys : Str) (b : Bool) : tokenize_aux ys b ≤ tokenize_len ys := by
  cases b
  · exact Nat.le_refl _
  · exact tokenize_aux_true_le ys

theorem tokenize_len_append_le (xs ys : Str) :
    tokenize_len (xs ++ ys) ≤ tokenize_len xs + tokenize_len ys := by
  unfold tokenize_len
  rw [tokenize_aux_append]
  exact Nat.add_le_add_left (tokenize_aux_le_len ys _) _

theorem tokenize_len_flatten_le (L : List Str) :
    tokenize_len L.flatten ≤ (L.map tokenize_len).sum := by
  induction L with
  | nil => simp [tokenize_len, tokenize_aux]
  | cons x L ih =>
    simp only [List.flatten_cons, List.map_cons, List.sum_cons]
    exact Nat.le_trans (tokenize_len_append_le x L.flatten) (Nat.add_le_add_left ih _)

theorem tokenize_aux_space_cons {c : Char} (hs : isSpaceChar c = true) (ys : Str) (b : Bool) :
    tokenize_aux (c :: ys) b = tokenize_aux ys false := by
  simp [tokenize_aux, hs, not_word_of_space hs]

theorem tokenize_aux_all_space {l : Str} (h : ∀ c ∈ l, isSpaceChar c = true) (b : Bool) :
    tokenize_aux l b = 0 := by
  induction l generalizing b with
  | nil => rfl
  | cons c cs ih =>
    rw [tokenize_aux_space_cons (h c (List.mem_cons_self c cs)) cs b]
    exact ih (fun x hx => h x (List.mem_cons_of_mem c hx)) false

theorem tokenize_len_dropLead (s : Str) : tokenize_len (s.dropWhile isSpaceChar) = tokenize_len s := by
  induction s with
  | nil => rfl
  | cons c cs ih =>
    by_cases hs : isSpaceChar c
    · rw [List.dropWhile_cons, if_pos hs, ih]
      unfold tokenize_len
      rw [tokenize_aux_space_cons hs]
    · rw [List.dropWhile_cons, if_neg (by simp [hs])]

theorem tokenize_len_append_space {trail : Str} (xs : Str)
    (h : ∀ c ∈ trail, isSpaceChar c = true) : tokenize_len (xs ++ trail) = tokenize_len xs := by
  unfold tokenize_len
  rw [tokenize_aux_append, tokenize_aux_all_space h, Nat.add_zero]

/-- The trailing-whitespace decomposition behind `str.strip()`. -/
theorem strip_decomp (t : Str) :
    t = (t.reverse.dropWhile isSpaceChar).reverse ++ (t.reverse.takeWhile isSpaceChar).reverse := by
  have h := List.takeWhile_append_dropWhile isSpaceChar t.reverse
  calc t = t.reverse.reverse := (List.reverse_reverse t).symm
    _ = (t.reverse.takeWhile isSpaceChar ++ t.reverse.dropWhile isSpaceChar).reverse := by rw [h]
    _ = _ := by rw [List.reverse_append]

theorem tokenize_len_strip (s : Str) : tokenize_len (stripChars s) = tokenize_len s := by
  unfold stripChars
  have h2 : tokenize_len (s.dropWhile isSpaceChar) = tokenize_len s := tokenize_len_dropLead s
  set t := s.dropWhile isSpaceChar with ht
  have hdec := strip_decomp t
  have hsp : ∀ c ∈ (t.reverse.takeWhile isSpaceChar).reverse, isSpaceChar c = true := by
    intro c hc
    exact List.mem_takeWhile_imp (List.mem_reverse.mp hc)
  calc tokenize_len (t.reverse.dropWhile isSpaceChar).reverse
      = tokenize_len ((t.reverse.dropWhile isSpaceChar).reverse ++
          (t.reverse.takeWhile isSpaceChar).reverse) :=
        (tokenize_len_append_space _ hsp).symm
    _ = tokenize_len t := by rw [← hdec]
    _ = tokenize_len s := h2

theorem spaceJoin_le_sum (l : List Str) :
    tokenize_len (spaceJoin l) ≤ (l.map tokenize_len).sum := by
  induction l with
  | nil => simp [spaceJoin, tokenize_len, tokenize_aux]
  | cons x l ih =>
    cases l with
    | nil => simp [spaceJoin]
    | cons y l' =>
      show tokenize_len (x ++ ' ' :: spaceJoin (y :: l')) ≤ _
      have h1 : tokenize_len (' ' :: spaceJoin (y :: l')) = tokenize_len (spaceJoin (y :: l')) :=
        tokenize_aux_space_cons (by decide) _ _
      calc tokenize_len (x ++ ' ' :: spaceJoin (y :: l'))
          ≤ tokenize_len x + tokenize_len (' ' :: spaceJoin (y :: l')) :=
            tokenize_len_append_le _ _
        _ = tokenize_len x + tokenize_len (spaceJoin (y :: l')) := by rw [h1]
        _ ≤ tokenize_len x + ((y :: l').map tokenize_len).sum := Nat.add_le_add_left ih _
        _ = ((x :: y :: l').map tokenize_len).sum := by simp

/-! ### Fragment shape: `\S+\s*` fragments are a non-space run plus a space run -/

/-- Shape of a `\S+\s*` match: a non-empty non-space run followed by spaces. -/
def fragShape (w : Str) : Prop :=
  ∃ a b, w = a ++ b ∧ a ≠ [] ∧ (∀ c ∈ a, isSpaceChar c = false) ∧ ∀ c ∈ b, isSpaceChar c = true

theorem fragsFuel_shape (n : Nat) : ∀ (s : Str), ∀ w ∈ fragsFuel n s, fragShape w := by
  induction n with
  | zero => intro s w hw; simp [fragsFuel] at hw
  | succ n ih =>
    intro s w hw
    match s with
    | [] => simp [fragsFuel] at hw
    | c :: cs =>
      by_cases hs : isSpaceChar c
      · rw [fragsFuel, if_pos hs] at hw
        exact ih cs w hw
      · rw [fragsFuel, if_neg hs] at hw
        rcases List.mem_cons.mp hw with h | h
        · refine ⟨(c :: cs).takeWhile (fun x => ! isSpaceChar x),
            ((c :: cs).dropWhile (fun x => ! isSpaceChar x)).takeWhile isSpaceChar, h, ?_, ?_, ?_⟩
          · rw [List.takeWhile_cons]
            simp [hs]
          · intro x hx
            have := List.mem_takeWhile_imp hx
            simpa using this
          · intro x hx
            exact List.mem_takeWhile_imp hx
        · exact ih _ w h

theorem frags_shape (s : Str) : ∀ w ∈ frags s, fragShape w :=
  fragsFuel_shape (s.length + 1) s

theorem dropWhile_append_of_all {p : Char → Bool} {xs : List Char} (ys : List Char)
    (h : ∀ c ∈ xs, p c = true) : (xs ++ ys).dropWhile p = ys.dropWhile p := by
  induction xs with
  | nil => rfl
  | cons c cs ih =>
    rw [List.cons_append, List.dropWhile_cons, if_pos (h c (List.mem_cons_self c cs))]
    exact ih (fun x hx => h x (List.mem_cons_of_mem c hx))

theorem dropWhile_eq_self_of_head {p : Char → Bool} {xs : List Char}
    (hne : xs ≠ []) (h : ∀ c ∈ xs, p c = false) : xs.dropWhile p = xs := by
  match xs with
  | [] => exact absurd rfl hne
  | c :: cs =>
    rw [List.dropWhile_cons, if_neg]
    simp [h c (List.mem_cons_self c cs)]

/-- Stripping a `\S+\s*` fragment leaves exactly its non-space run. -/
theorem strip_frag {w : Str} (h : fragShape w) :
    stripChars w ≠ [] ∧ ∀ c ∈ stripChars w, isSpaceChar c = false := by
  rcases h with ⟨a, b, rfl, hane, hans, hbs⟩
  have h1 : (a ++ b).dropWhile isSpaceChar = a ++ b := by
    match a, hane with
    | c :: a', _ =>
      rw [List.cons_append, List.dropWhile_cons,
        if_neg (by simp [hans c (List.mem_cons_self c a')])]
  have h2 : (a ++ b).reverse.dropWhile isSpaceChar = a.reverse := by
    rw [List.reverse_append]
    rw [dropWhile_append_of_all a.reverse (fun c hc => hbs c (List.mem_reverse.mp hc))]
    exact dropWhile_eq_self_of_head (by simpa using hane)
      (fun c hc => hans c (List.mem_reverse.mp hc))
  unfold stripChars
  rw [h1, h2, List.reverse_reverse]
  exact ⟨hane, hans⟩

/-! ### Chunk-size invariant of the chunker (claim C2) -/

/-- Property of every emitted chunk: within the token limit, or a single
whitespace-free indivisible fragment. -/
def chunkOk (limit : Nat) (c : Str) : Prop :=
  tokenize_len c ≤ limit ∨ ∀ ch ∈ c, isSpaceChar ch = false

theorem flush_ok (limit : Nat) (tmp : List Str)
    (h : (tmp.map tokenize_len).sum ≤ limit ∨ ∃ w, tmp = [w] ∧ fragShape w) :
    chunkOk limit (stripChars (List.flatten tmp)) := by
  rcases h with h | ⟨w, rfl, hw⟩
  · left
    rw [tokenize_len_strip]
    exact Nat.le_trans (tokenize_len_flatten_le tmp) h
  · right
    have hfl : List.flatten [w] = w := by simp
    rw [hfl]
    exact (strip_frag hw).2

theorem splitFold_ok (limit : Nat) :
    ∀ (fs : List Str) (chs tmp : List Str) (tmpT : Nat),
      (∀ w ∈ fs, fragShape w) →
      (∀ c ∈ chs, chunkOk limit c) →
      tmpT = (tmp.map tokenize_len).sum →
      (tmpT ≤ limit ∨ ∃ w, tmp = [w] ∧ fragShape w) →
      (∀ c ∈ (fs.foldl (splitStep limit) (chs, tmp, tmpT)).1, chunkOk limit c) ∧
        (fs.foldl (splitStep limit) (chs, tmp, tmpT)).2.2 =
          ((fs.foldl (splitStep limit) (chs, tmp, tmpT)).2.1.map tokenize_len).sum ∧
        ((fs.foldl (splitStep limit) (chs, tmp, tmpT)).2.2 ≤ limit ∨
          ∃ w, (fs.foldl (splitStep limit) (chs, tmp, tmpT)).2.1 = [w] ∧ fragShape w) := by
  intro fs
  induction fs with
  | nil => intro chs tmp tmpT _ h1 h2 h3; exact ⟨h1, h2, h3⟩
  | cons w fs ih =>
    intro chs tmp tmpT hshape h1 h2 h3
    have hw : fragShape w := hshape w (List.mem_cons_self w fs)
    have hshape' : ∀ x ∈ fs, fragShape x := fun x hx => hshape x (List.mem_cons_of_mem w hx)
    rw [List.foldl_cons]
    by_cases hc : limit < tmpT + tokenize_len w ∧ tmp ≠ []
    · rw [show splitStep limit (chs, tmp, tmpT) w =
        (chs ++ [stripChars (List.flatten tmp)], [w], tokenize_len w) by
          unfold splitStep; rw [if_pos hc]]
      refine ih _ _ _ hshape' ?_ (by simp) (Or.inr ⟨w, rfl, hw⟩)
      intro c hcm
      rcases List.mem_append.mp hcm with h | h
      · exact h1 c h
      · rw [List.mem_singleton.mp h]
        exact flush_ok limit tmp (by rw [← h2]; exact h3)
    · rw [show splitStep limit (chs, tmp, tmpT) w =
        (chs, tmp ++ [w], tmpT + tokenize_len w) by
          unfold splitStep; rw [if_neg hc]]
      push_neg at hc
      refine ih _ _ _ hshape' h1 (by simp [h2]) ?_
      by_cases htmp : tmp = []
      · subst htmp
        right
        exact ⟨w, by simp, hw⟩
      · left
        exact Nat.le_of_not_lt (fun hlt => absurd (hc hlt) (by simp [htmp]))

theorem splitOversized_ok (limit : Nat) (snip : Str) :
    ∀ c ∈ splitOversized limit snip, chunkOk limit c := by
  intro c hc
  unfold splitOversized at hc
  have h := splitFold_ok limit (frags snip) [] [] 0 (frags_shape snip)
    (by intro x hx; simp at hx) (by simp) (Or.inl (Nat.zero_le _))
  set st := (frags snip).foldl (splitStep limit) ([], [], 0) with hst
  by_cases hne : st.2.1 = []
  · rw [if_neg (by simp [hne])] at hc
    exact h.1 c hc
  · rw [if_pos hne] at hc
    rcases List.mem_append.mp hc with hm | hm
    · exact h.1 c hm
    · rw [List.mem_singleton.mp hm]
      exact flush_ok limit st.2.1 (by rw [← h.2.1]; exact h.2.2)

theorem chunkFold_ok (limit : Nat) :
    ∀ (sn : List Str) (chs buf : List Str) (bufT : Nat),
      (∀ c ∈ chs, chunkOk limit c) →
      bufT = (buf.map tokenize_len).sum →
      bufT ≤ limit →
      (∀ c ∈ (sn.foldl (chunkStep limit) (chs, buf, bufT)).1, chunkOk limit c) ∧
        (sn.foldl (chunkStep limit) (chs, buf, bufT)).2.2 =
          ((sn.foldl (chunkStep limit) (chs, buf, bufT)).2.1.map tokenize_len).sum ∧
        (sn.foldl (chunkStep limit) (chs, buf, bufT)).2.2 ≤ limit := by
  intro sn
  induction sn with
  | nil => intro chs buf bufT h1 h2 h3; exact ⟨h1, h2, h3⟩
  | cons snip sn ih =>
    intro chs buf bufT h1 h2 h3
    rw [List.foldl_cons]
    by_cases hov : limit < tokenize_len snip
    · rw [show chunkStep limit (chs, buf, bufT) snip =
        (chs ++ splitOversized limit snip, buf, bufT) by
          unfold chunkStep; rw [if_pos hov]]
      refine ih _ _ _ ?_ h2 h3
      intro c hcm
      rcases List.mem_append.mp hcm with h | h
      · exact h1 c h
      · exact splitOversized_ok limit snip c h
    · by_cases hfl : limit < bufT + tokenize_len snip ∧ buf ≠ []
      · rw [show chunkStep limit (chs, buf, bufT) snip =
          (chs ++ [stripChars (spaceJoin buf)], [snip], tokenize_len snip) by
            unfold chunkStep; rw [if_neg hov, if_pos hfl]]
        refine ih _ _ _ ?_ (by simp) (Nat.le_of_not_lt hov)
        intro c hcm
        rcases List.mem_append.mp hcm with h | h
        · exact h1 c h
        · rw [List.mem_singleton.mp h]
          left
          rw [tokenize_len_strip]
          exact Nat.le_trans (spaceJoin_le_sum buf) (by rw [← h2]; exact h3)
      · rw [show chunkStep limit (chs, buf, bufT) snip =
          (chs, buf ++ [snip], bufT + tokenize_len snip) by
            unfold chunkStep; rw [if_neg hov, if_neg hfl]]
        push_neg at hfl
        refine ih _ _ _ h1 (by simp [h2]) ?_
        by_cases hbuf : buf = []
        · subst hbuf
          simp only [List.map_nil, List.sum_nil] at h2
          rw [h2, Nat.zero_add]
          exact Nat.le_of_not_lt hov
        · exact Nat.le_of_not_lt (fun hlt => absurd (hfl hlt) (by simp [hbuf]))

/--
Claim C2: for every list of input blocks and every positive token limit,
every chunk returned by `chunk_by_token_limit` has token count (matches of
`\w+|[^\w\s]`) at most the limit, except a chunk consisting of a single
indivisible whitespace-delimited fragment (such a chunk contains no
whitespace at all) whose own token count exceeds the limit.
-/
theorem chunker_token_bound (snippets : List Str) (limit : Nat) (hpos : 0 < limit) :
    ∀ c ∈ chunk_by_token_limit snippets limit,
      tokenize_len c ≤ limit ∨ ∀ ch ∈ c, isSpaceChar ch = false := by
  intro c hc
  unfold chunk_by_token_limit at hc
  have h := chunkFold_ok limit snippets [] [] 0 (by intro x hx; simp at hx) (by simp)
    (Nat.zero_le _)
  set st := snippets.foldl (chunkStep limit) ([], [], 0) with hst
  by_cases hne : st.2.1 = []
  · rw [if_neg (by simp [hne])] at hc
    exact h.1 c hc
  · rw [if_pos hne] at hc
    rcases List.mem_append.mp hc with hm | hm
    · exact h.1 c hm
    · rw [List.mem_singleton.mp hm]
      left
      rw [tokenize_len_strip]
      exact Nat.le_trans (spaceJoin_le_sum st.2.1) (by rw [← h.2.1]; exact h.2.2)

/-- Witness for C2 at a concrete input. -/
theorem chunker_token_bound_witness :
    0 < 2 ∧ ("ab cd".toList ∈ chunk_by_token_limit ["ab cd".toList] 2) ∧
      (tokenize_len "ab cd".toList ≤ 2 ∨ ∀ ch ∈ "ab cd".toList, isSpaceChar ch = false) :=
  ⟨by decide, by decide,
    chunker_token_bound ["ab cd".toList] 2 (by decide) "ab cd".toList (by decide)⟩

/--
Claim C1 counterexample: with blocks `["ab", "x y z"]` and limit 2, the
block `"x y z"` is oversized (3 tokens) and is met while the buffer holds
`"ab"`; the code does NOT flush the buffer first: the sub-chunks `"x y"`,
`"z"` are appended to the output and the buffered `"ab"` is only emitted by
the final flush, after them.  So the output is `["x y", "z", "ab"]`, not
the order-preserving `["ab", "x y", "z"]` the claim demands.
-/
theorem chunker_flush_order_cex :
    chunk_by_token_limit ["ab".toList, "x y z".toList] 2 =
      ["x y".toList, "z".toList, "ab".toList] ∧
    chunk_by_token_limit ["ab".toList, "x y z".toList] 2 ≠
      ["ab".toList, "x y".toList, "z".toList] := by
  constructor
  · decide
  · decide

/--
Claim C1 amended: when an oversized block is encountered while the buffer
is non-empty, the buffer is NOT flushed first; the oversized block's
sub-chunks are appended to the output and the pending buffer content is
emitted only when the buffer is later flushed, after those sub-chunks.
Hence chunk order does not always match input block order.  Stated for a
buffered block `s1` followed by an oversized block `s2`.
-/
theorem chunker_oversized_keeps_buffer (s1 s2 : Str) (limit : Nat)
    (h1 : tokenize_len s1 ≤ limit) (h2 : limit < tokenize_len s2) :
    chunk_by_token_limit [s1, s2] limit = splitOversized limit s2 ++ [stripChars s1] := by
  unfold chunk_by_token_limit
  rw [List.foldl_cons, List.foldl_cons, List.foldl_nil]
  rw [show chunkStep limit ([], [], 0) s1 = ([], [s1], 0 + tokenize_len s1) by
    unfold chunkStep
    rw [if_neg (by omega), if_neg (by simp)]
    simp]
  rw [show chunkStep limit ([], [s1], 0 + tokenize_len s1) s2 =
      (([] : List Str) ++ splitOversized limit s2, [s1], 0 + tokenize_len s1) by
    unfold chunkStep
    rw [if_pos h2]]
  simp [spaceJoin]

/-- Witness for the amended C1 at a concrete input. -/
theorem chunker_oversized_keeps_buffer_witness :
    tokenize_len "ab".toList ≤ 2 ∧ 2 < tokenize_len "x y z".toList ∧
      chunk_by_token_limit ["ab".toList, "x y z".toList] 2 =
        splitOversized 2 "x y z".toList ++ [stripChars "ab".toList] :=
  ⟨by decide, by decide,
    chunker_oversized_keeps_buffer "ab".toList "x y z".toList 2 (by decide) (by decide)⟩

/-! ### Link discovery (`same_domain_links`)

`urllib.parse` is an external library: `urlparse` / `urljoin` are modelled
as abstract functions supplied by a `UrlModel`, and the parsed HTML is
modelled by the list of anchor `href` values in document order (the only
part of the document `same_domain_links` reads).
-/

/-- The components of `urllib.parse.urlparse` that the source reads. -/
structure PUrl where
  scheme : Str
  netloc : Str
  path : Str
deriving DecidableEq

/-- Abstract model of `urllib.parse` (external collaborator). -/
structure UrlModel where
  urlparse : Str → PUrl
  urljoin : Str → Str → Str

/-- The filter `u.scheme in ("http","https") and u.netloc == origin.netloc`. -/
def sameOriginOk (M : UrlModel) (origin : PUrl) (href : Str) : Prop :=
  ((M.urlparse href).scheme = "http".toList ∨ (M.urlparse href).scheme = "https".toList) ∧
    (M.urlparse href).netloc = origin.netloc

instance (M : UrlModel) (origin : PUrl) (href : Str) : Decidable (sameOriginOk M origin href) := by
  unfold sameOriginOk
  infer_instance

/--
Loop of `same_domain_links`: `seen` is the set of collected URLs (modelled
as a list, membership only), `q` the output list; both start as
`[start_url]`.  The loop breaks when `len(seen) >= limit` before an anchor
or when `len(q) >= limit` after one.
-/
def sdlLoop (M : UrlModel) (start : Str) (origin : PUrl) (limit : Nat)
    (seen q : List Str) : List Str → List Str
  | [] => q
  | a :: rest =>
    if limit ≤ seen.length then q
    else if sameOriginOk M origin (M.urljoin start a) ∧ M.urljoin start a ∉ seen then
      (if limit ≤ (q ++ [M.urljoin start a]).length then q ++ [M.urljoin start a]
       else sdlLoop M start origin limit (M.urljoin start a :: seen) (q ++ [M.urljoin start a]) rest)
    else
      (if limit ≤ q.length then q else sdlLoop M start origin limit seen q rest)

/-- Source `same_domain_links` (anchors = the `href` of each `<a href=..>`). -/
def same_domain_links (M : UrlModel) (start_url : Str) (anchors : List Str)
    (limit : Nat) : List Str :=
  sdlLoop M start_url (M.urlparse start_url) limit [start_url] [start_url] anchors

/-- First-occurrence deduplication relative to an initial seen-set. -/
def dedupSeen (seen : List Str) : List Str → List Str
  | [] => []
  | x :: xs => if x ∈ seen then dedupSeen seen xs else x :: dedupSeen (x :: seen) xs

theorem dedupSeen_mem : ∀ (l seen : List Str) (x : Str),
    x ∈ dedupSeen seen l → x ∈ l ∧ x ∉ seen := by
  intro l
  induction l with
  | nil => intro seen x hx; simp [dedupSeen] at hx
  | cons y ys ih =>
    intro seen x hx
    by_cases hy : y ∈ seen
    · rw [dedupSeen, if_pos hy] at hx
      have := ih seen x hx
      exact ⟨List.mem_cons_of_mem y this.1, this.2⟩
    · rw [dedupSeen, if_neg hy] at hx
      rcases List.mem_cons.mp hx with h | h
      · subst h
        exact ⟨List.mem_cons_self x ys, hy⟩
      · have := ih (y :: seen) x h
        exact ⟨List.mem_cons_of_mem y this.1,
          fun hmem => this.2 (List.mem_cons_of_mem y hmem)⟩

theorem dedupSeen_nodup : ∀ (l seen : List Str), (dedupSeen seen l).Nodup := by
  intro l
  induction l with
  | nil => intro seen; simp [dedupSeen]
  | cons y ys ih =>
    intro seen
    by_cases hy : y ∈ seen
    · rw [dedupSeen, if_pos hy]
      exact ih seen
    · rw [dedupSeen, if_neg hy]
      refine List.nodup_cons.mpr ⟨?_, ih (y :: seen)⟩
      intro hmem
      exact (dedupSeen_mem ys (y :: seen) y hmem).2 (List.mem_cons_self y seen)

theorem sdlLoop_char (M : UrlModel) (start : Str) (origin : PUrl) (limit : Nat) :
    ∀ (l seen q : List Str), seen.length = q.length →
      sdlLoop M start origin limit seen q l =
        q ++ (dedupSeen seen ((l.map (M.urljoin start)).filter
          (fun x => decide (sameOriginOk M origin x)))).take (limit - q.length) := by
  intro l
  induction l with
  | nil => intro seen q _; simp [sdlLoop, dedupSeen]
  | cons a rest ih =>
    intro seen q hlen
    rw [sdlLoop]
    by_cases hbr : limit ≤ seen.length
    · rw [if_pos hbr]
      have h0 : limit - q.length = 0 := by omega
      simp [h0]
    · rw [if_neg hbr]
      have hq : q.length < limit := by omega
      simp only [List.map_cons, List.filter_cons]
      by_cases hadd : sameOriginOk M origin (M.urljoin start a) ∧ M.urljoin start a ∉ seen
      · rw [if_pos hadd]
        rw [if_pos (show decide (sameOriginOk M origin (M.urljoin start a)) = true by
          simpa using hadd.1)]
        simp only [dedupSeen]
        rw [if_neg hadd.2]
        obtain ⟨k, hk⟩ : ∃ k, limit - q.length = k + 1 := ⟨limit - q.length - 1, by omega⟩
        rw [hk, List.take_succ_cons]
        by_cases hfull : limit ≤ (q ++ [M.urljoin start a]).length
        · rw [if_pos hfull]
          have hkz : k = 0 := by
            simp only [List.length_append, List.length_cons, List.length_nil] at hfull
            omega
          subst hkz
          simp
        · rw [if_neg hfull]
          rw [ih (M.urljoin start a :: seen) (q ++ [M.urljoin start a]) (by simp [hlen])]
          have hk2 : limit - (q ++ [M.urljoin start a]).length = k := by
            simp only [List.length_append, List.length_cons, List.length_nil]
            omega
          rw [hk2]
          simp
      · rw [if_neg hadd]
        rw [if_neg (show ¬ limit ≤ q.length by omega)]
        rw [ih seen q hlen]
        by_cases hok : sameOriginOk M origin (M.urljoin start a)
        · have hseen : M.urljoin start a ∈ seen := by tauto
          rw [if_pos (show decide (sameOriginOk M origin (M.urljoin start a)) = true by
            simpa using hok)]
          simp only [dedupSeen]
          rw [if_pos hseen]
        · rw [if_neg (show ¬ decide (sameOriginOk M origin (M.urljoin start a)) = true by
            simpa using hok)]

/-- `same_domain_links` in closed form. -/
theorem same_domain_links_char (M : UrlModel) (start : Str) (anchors : List Str)
    (limit : Nat) :
    same_domain_links M start anchors limit =
      start :: (dedupSeen [start] ((anchors.map (M.urljoin start)).filter
        (fun x => decide (sameOriginOk M (M.urlparse start) x)))).take (limit - 1) := by
  unfold same_domain_links
  rw [sdlLoop_char M start (M.urlparse start) limit anchors [start] [start] rfl]
  simp

/-- A concrete `UrlModel` for closed evaluations: `scheme://host/path`
splitting, with `urljoin` treating every anchor href as already absolute. -/
def hostUrlModel : UrlModel where
  urlparse := fun s =>
    { scheme := s.takeWhile (fun c => c ≠ ':')
      netloc := ((s.dropWhile (fun c => c ≠ ':')).drop 3).takeWhile (fun c => c ≠ '/')
      path := ((s.dropWhile (fun c => c ≠ ':')).drop 3).dropWhile (fun c => c ≠ '/') }
  urljoin := fun _ a => a

/--
Claim C5 counterexample: with page budget 0 the output still contains the
start URL, so its length (= 1) exceeds the budget.  (`len(seen) >= limit`
can only break out of the anchor loop; `q` starts as `[start_url]`.)
-/
theorem same_domain_links_budget_cex :
    same_domain_links hostUrlModel "https://e.com".toList [] 0 = ["https://e.com".toList] ∧
      ¬ (same_domain_links hostUrlModel "https://e.com".toList [] 0).length ≤ 0 := by
  constructor
  · decide
  · decide

/--
Claim C5 amended: for every start URL, start HTML and POSITIVE page
budget, `same_domain_links` returns at most `limit` URLs, the first entry
is the start URL and it occurs exactly once, all entries are distinct, and
the remaining entries are http/https URLs on the start URL's host
(obtained by joining the anchors against the start URL), kept in
first-occurrence document order.
-/
theorem same_domain_links_spec (M : UrlModel) (start : Str) (anchors : List Str)
    (limit : Nat) (hpos : 1 ≤ limit) :
    (same_domain_links M start anchors limit).length ≤ limit ∧
    (same_domain_links M start anchors limit).head? = some start ∧
    (same_domain_links M start anchors limit).count start = 1 ∧
    (same_domain_links M start anchors limit).Nodup ∧
    (∀ u ∈ (same_domain_links M start anchors limit).tail,
      sameOriginOk M (M.urlparse start) u ∧ u ∈ anchors.map (M.urljoin start)) ∧
    (same_domain_links M start anchors limit).tail =
      (dedupSeen [start] ((anchors.map (M.urljoin start)).filter
        (fun x => decide (sameOriginOk M (M.urlparse start) x)))).take (limit - 1) := by
  rw [same_domain_links_char M start anchors limit]
  set D := dedupSeen [start] ((anchors.map (M.urljoin start)).filter
    (fun x => decide (sameOriginOk M (M.urlparse start) x))) with hD
  have hmemD : ∀ u ∈ D, (sameOriginOk M (M.urlparse start) u ∧
      u ∈ anchors.map (M.urljoin start)) ∧ u ∉ [start] := by
    intro u hu
    have h1 := dedupSeen_mem _ _ _ hu
    have h2 := List.mem_filter.mp h1.1
    exact ⟨⟨by simpa using h2.2, h2.1⟩, h1.2⟩
  have hmemT : ∀ u ∈ D.take (limit - 1), (sameOriginOk M (M.urlparse start) u ∧
      u ∈ anchors.map (M.urljoin start)) ∧ u ∉ [start] :=
    fun u hu => hmemD u (List.take_subset _ _ hu)
  refine ⟨?_, rfl, ?_, ?_, ?_, rfl⟩
  · have := List.length_take_le (limit - 1) D
    simp only [List.length_cons]
    omega
  · rw [List.count_cons_self]
    have : (D.take (limit - 1)).count start = 0 := by
      rw [List.count_eq_zero]
      intro hmem
      exact (hmemT start hmem).2 (List.mem_singleton.mpr rfl)
    omega
  · refine List.nodup_cons.mpr ⟨?_, ?_⟩
    · intro hmem
      exact (hmemT start hmem).2 (List.mem_singleton.mpr rfl)
    · exact (dedupSeen_nodup _ _).sublist (List.take_sublist _ _)
  · intro u hu
    exact (hmemT u hu).1

/-- Witness for the amended C5 at a concrete input. -/
theorem same_domain_links_spec_witness :
    1 ≤ 3 ∧
      (same_domain_links hostUrlModel "https://e.com".toList
        ["https://e.com/a".toList, "https://e.com/a".toList, "http://x.org/b".toList]
        3).length ≤ 3 :=
  ⟨by decide,
    (same_domain_links_spec hostUrlModel "https://e.com".toList
      ["https://e.com/a".toList, "https://e.com/a".toList, "http://x.org/b".toList]
      3 (by decide)).1⟩

/-! ### Retriever post-processing (`search_top_k`, lines 154-173)

The store response is modelled as a list of matches; `m.get("score", 0.0)`
and `m.get("metadata") or {}` with the `md.get(...)` defaults are modelled
with `Option` fields.  Scores are modelled as rationals; `int(round(x))`
is Python 3 `round` (banker's rounding, ties to even), which on an `Int`
result makes `int(...)` the identity.
-/

/-- Python 3 `round` to an integer: nearest, ties to even. -/
def pyRound (q : ℚ) : ℤ :=
  let n := ⌊q⌋
  let r := q - n
  if r < 1 / 2 then n
  else if 1 / 2 < r then n + 1
  else if Even n then n else n + 1

/-- The metadata keys `search_top_k` reads (absent keys = `none`). -/
structure QMeta where
  chunk_html : Option Str
  title : Option Str
  path : Option Str
  page_url : Option Str

/-- One match of the store's query response. -/
structure QMatch where
  score : Option ℚ
  metadata : Option QMeta

/-- One entry of the list built by `search_top_k` before deduplication. -/
structure RItem where
  raw_score : ℚ
  score_percent : ℤ
  chunk_html : Str
  title : Option Str
  path : Str
  page_url : Option Str
deriving DecidableEq

/-- The per-match record built in the first loop of `search_top_k`. -/
def toItem (m : QMatch) : RItem :=
  let md := m.metadata.getD ⟨none, none, none, none⟩
  let score := m.score.getD 0
  { raw_score := score
    score_percent := pyRound ((score + 1) / 2 * 100)
    chunk_html := md.chunk_html.getD []
    title := md.title
    path := md.path.getD "/".toList
    page_url := md.page_url }

/--
Deduplication loop of `search_top_k`: `seen` holds the first-200-character
keys of kept results, `uniq` the kept results; the loop breaks as soon as
`len(uniq) >= top_k` (checked after each iteration's optional append).
-/
def dedupLoop (top_k : Nat) (seen : List Str) (uniq : List RItem) :
    List RItem → List RItem
  | [] => uniq
  | r :: rest =>
    if r.chunk_html.take 200 ∉ seen ∧ r.chunk_html ≠ [] then
      (if top_k ≤ (uniq ++ [r]).length then uniq ++ [r]
       else dedupLoop top_k (r.chunk_html.take 200 :: seen) (uniq ++ [r]) rest)
    else
      (if top_k ≤ uniq.length then uniq else dedupLoop top_k seen uniq rest)

/-- Source `search_top_k`, response post-processing part: build the result
records, then deduplicate by 200-character key and truncate to `top_k`. -/
def search_top_k_post (ms : List QMatch) (top_k : Nat) : List RItem :=
  dedupLoop top_k [] [] (ms.map toItem)

theorem dedupLoop_spec (top_k : Nat) :
    ∀ (l uniq : List RItem) (seen : List Str),
      uniq.length < top_k →
      (∀ r ∈ uniq, r.chunk_html ≠ []) →
      (uniq.map (fun r => r.chunk_html.take 200)).Nodup →
      (∀ r ∈ uniq, r.chunk_html.take 200 ∈ seen) →
      (dedupLoop top_k seen uniq l).length ≤ top_k ∧
      (∃ t, dedupLoop top_k seen uniq l = uniq ++ t ∧ t.Sublist l) ∧
      (∀ r ∈ dedupLoop top_k seen uniq l, r.chunk_html ≠ []) ∧
      ((dedupLoop top_k seen uniq l).map (fun r => r.chunk_html.take 200)).Nodup := by
  intro l
  induction l with
  | nil =>
    intro uniq seen hlen h1 h2 _
    exact ⟨Nat.le_of_lt hlen, ⟨[], by simp [dedupLoop], List.nil_sublist []⟩, by
      simpa [dedupLoop] using h1, by simpa [dedupLoop] using h2⟩
  | cons r rest ih =>
    intro uniq seen hlen h1 h2 h3
    rw [dedupLoop]
    by_cases hc : r.chunk_html.take 200 ∉ seen ∧ r.chunk_html ≠ []
    · rw [if_pos hc]
      have hne : ∀ x ∈ uniq ++ [r], x.chunk_html ≠ [] := by
        intro x hx
        rcases List.mem_append.mp hx with h | h
        · exact h1 x h
        · rw [List.mem_singleton.mp h]; exact hc.2
      have hnd : ((uniq ++ [r]).map (fun x => x.chunk_html.take 200)).Nodup := by
        rw [List.map_append]
        refine List.Nodup.append h2 (by simp) ?_
        intro k hk hk2
        simp only [List.map_cons, List.map_nil, List.mem_singleton] at hk2
        rcases List.mem_map.mp hk with ⟨x, hx, hkey⟩
        exact hc.1 (by rw [← hk2, ← hkey]; exact h3 x hx)
      by_cases hfull : top_k ≤ (uniq ++ [r]).length
      · rw [if_pos hfull]
        refine ⟨by simp only [List.length_append, List.length_cons, List.length_nil]; omega,
          ⟨[r], rfl, ?_⟩, hne, hnd⟩
        exact (List.nil_sublist rest).cons₂ r
      · rw [if_neg hfull]
        have := ih (uniq ++ [r]) (r.chunk_html.take 200 :: seen) (by omega) hne hnd (by
          intro x hx
          rcases List.mem_append.mp hx with h | h
          · exact List.mem_cons_of_mem _ (h3 x h)
          · rw [List.mem_singleton.mp h]; exact List.mem_cons_self _ _)
        obtain ⟨t, heq, hsub⟩ := this.2.1
        refine ⟨this.1, ⟨r :: t, by rw [heq]; simp, hsub.cons₂ r⟩, this.2.2.1, this.2.2.2⟩
    · rw [if_neg hc, if_neg (by omega)]
      have := ih uniq seen hlen h1 h2 h3
      obtain ⟨t, heq, hsub⟩ := this.2.1
      exact ⟨this.1, ⟨t, heq, hsub.cons r⟩, this.2.2.1, this.2.2.2⟩

/--
Claim C6: for every store query response (list of matches) and positive
`top_k`, `search_top_k` returns at most `top_k` results, kept in the
store's original ranking order (a sublist of the mapped response, never
re-sorted), with no two results sharing the same first-200-character
fragment key, and results with empty fragment content dropped.
-/
theorem search_top_k_spec (ms : List QMatch) (top_k : Nat) (hpos : 1 ≤ top_k) :
    (search_top_k_post ms top_k).length ≤ top_k ∧
    (search_top_k_post ms top_k).Sublist (ms.map toItem) ∧
    (∀ r ∈ search_top_k_post ms top_k, r.chunk_html ≠ []) ∧
    ((search_top_k_post ms top_k).map (fun r => r.chunk_html.take 200)).Nodup := by
  have h := dedupLoop_spec top_k (ms.map toItem) [] []
    (by simp only [List.length_nil]; omega) (by simp) (by simp) (by simp)
  obtain ⟨t, heq, hsub⟩ := h.2.1
  refine ⟨h.1, ?_, h.2.2.1, h.2.2.2⟩
  unfold search_top_k_post
  rw [heq]
  simpa using hsub

/-- Example matches for closed evaluations of the retriever. -/
def qmA : QMatch := ⟨some (4 / 5), some ⟨some "hello world".toList, none, none, none⟩⟩

/-- A match with empty fragment content (dropped by the dedup loop). -/
def qmB : QMatch := ⟨some 0, some ⟨some [], none, none, none⟩⟩

/-- Witness for C6 at a concrete input. -/
theorem search_top_k_spec_witness :
    1 ≤ 2 ∧ (search_top_k_post [qmA, qmB] 2).length ≤ 2 :=
  ⟨by decide, (search_top_k_spec [qmA, qmB] 2 (by decide)).1⟩

theorem dedupLoop_sublist (top_k : Nat) : ∀ (l uniq : List RItem) (seen : List Str),
    ∃ t, dedupLoop top_k seen uniq l = uniq ++ t ∧ t.Sublist l := by
  intro l
  induction l with
  | nil => intro uniq seen; exact ⟨[], by simp [dedupLoop], List.nil_sublist _⟩
  | cons r rest ih =>
    intro uniq seen
    rw [dedupLoop]
    by_cases hc : r.chunk_html.take 200 ∉ seen ∧ r.chunk_html ≠ []
    · rw [if_pos hc]
      by_cases hfull : top_k ≤ (uniq ++ [r]).length
      · rw [if_pos hfull]
        exact ⟨[r], rfl, (List.nil_sublist rest).cons₂ r⟩
      · rw [if_neg hfull]
        obtain ⟨t, heq, hsub⟩ := ih (uniq ++ [r]) (r.chunk_html.take 200 :: seen)
        exact ⟨r :: t, by rw [heq]; simp, hsub.cons₂ r⟩
    · rw [if_neg hc]
      by_cases hfull : top_k ≤ uniq.length
      · rw [if_pos hfull]
        exact ⟨[], by simp, List.nil_sublist _⟩
      · rw [if_neg hfull]
        obtain ⟨t, heq, hsub⟩ := ih uniq seen
        exact ⟨t, heq, hsub.cons r⟩

/--
Claim C9: every result's percentage score equals
`round((s + 1) / 2 * 100)` of its raw similarity score `s ∈ [-1, 1]`
(Python 3 `round`, ties to even), and in particular `s = 0.8` gives 90.
-/
theorem score_percent_formula (ms : List QMatch) (top_k : Nat) :
    (∀ r ∈ search_top_k_post ms top_k, -1 ≤ r.raw_score → r.raw_score ≤ 1 →
      r.score_percent = pyRound ((r.raw_score + 1) / 2 * 100)) ∧
    pyRound ((4 / 5 + 1) / 2 * 100) = 90 := by
  constructor
  · intro r hr _ _
    obtain ⟨t, heq, hsub⟩ := dedupLoop_sublist top_k (ms.map toItem) [] []
    unfold search_top_k_post at hr
    rw [heq] at hr
    simp only [List.nil_append] at hr
    have hr2 : r ∈ ms.map toItem := hsub.subset hr
    rcases List.mem_map.mp hr2 with ⟨m, _, rfl⟩
    rfl
  · have h90 : ((4 / 5 + 1) / 2 * 100 : ℚ) = 90 := by norm_num
    rw [h90]
    unfold pyRound
    norm_num

/-- Witness for C9 at a concrete input (raw score 4/5 = 0.8). -/
theorem score_percent_formula_witness :
    toItem qmA ∈ search_top_k_post [qmA] 1 ∧ -1 ≤ (toItem qmA).raw_score ∧
      (toItem qmA).raw_score ≤ 1 ∧
      (toItem qmA).score_percent = pyRound (((toItem qmA).raw_score + 1) / 2 * 100) := by
  have hmem : toItem qmA ∈ search_top_k_post [qmA] 1 := by
    have : search_top_k_post [qmA] 1 = [toItem qmA] := by
      simp [search_top_k_post, dedupLoop, toItem, qmA]
    rw [this]
    exact List.mem_singleton.mpr rfl
  have h1 : (-1 : ℚ) ≤ (toItem qmA).raw_score := by norm_num [toItem, qmA]
  have h2 : (toItem qmA).raw_score ≤ 1 := by norm_num [toItem, qmA]
  exact ⟨hmem, h1, h2, (score_percent_formula [qmA] 1).1 (toItem qmA) hmem h1 h2⟩

/-! ### Title extraction (`extract_title_from_html`)

HTML parsing is external (BeautifulSoup); a parsed fragment is modelled by
what the source reads from it: `s.find(tag)` for each candidate tag (with
the element's `get_text(strip=True)` and `get_text(" ", strip=True)`
results) and the whole-fragment `get_text(" ", strip=True)`.
-/

/-- The two `get_text` projections of an element that the source uses. -/
structure Elem where
  textStrip : Str
  textSpaced : Str

/-- A parsed HTML fragment, as read by `extract_title_from_html`. -/
structure Frag where
  find : Str → Option Elem
  fullText : Str

/-- The tag preference order of `extract_title_from_html`. -/
def titleTags : List Str :=
  ["h1".toList, "h2".toList, "h3".toList, "strong".toList, "b".toList, "p".toList, "li".toList]

/-- The `for tag in [...]` loop: first found element with non-empty text. -/
def findFirstTitle (f : Frag) : List Str → Option Elem
  | [] => none
  | tg :: rest =>
    match f.find tg with
    | some t => if t.textStrip ≠ [] then some t else findFirstTitle f rest
    | none => findFirstTitle f rest

/-- Source `extract_title_from_html`. -/
def extract_title_from_html (f : Frag) : Str :=
  match findFirstTitle f titleTags with
  | some t => (normalize_space t.textSpaced).take 140
  | none => (normalize_space f.fullText).take 140

theorem findFirstTitle_none (f : Frag) :
    ∀ (tags : List Str), (∀ tg ∈ tags, ∀ e, f.find tg = some e → e.textStrip = []) →
      findFirstTitle f tags = none := by
  intro tags
  induction tags with
  | nil => intro _; rfl
  | cons tg rest ih =>
    intro h
    rw [findFirstTitle]
    cases hf : f.find tg with
    | none => exact ih fun x hx => h x (List.mem_cons_of_mem tg hx)
    | some e =>
      show (if e.textStrip ≠ [] then some e else findFirstTitle f rest) = none
      rw [if_neg (by simpa using h tg (List.mem_cons_self tg rest) e hf)]
      exact ih fun x hx => h x (List.mem_cons_of_mem tg hx)

/--
Claim C10: the derived title is at most 140 characters: the
whitespace-normalized spaced text of the first heading / emphasis /
paragraph / list-item element with non-empty text, truncated to 140
characters, falling back to the truncated normalized whole-fragment text
when no such element has text.
-/
theorem extract_title_len (f : Frag) :
    (extract_title_from_html f).length ≤ 140 ∧
      ((∀ tg ∈ titleTags, ∀ e, f.find tg = some e → e.textStrip = []) →
        extract_title_from_html f = (normalize_space f.fullText).take 140) := by
  constructor
  · unfold extract_title_from_html
    cases findFirstTitle f titleTags with
    | some t =>
      show ((normalize_space t.textSpaced).take 140).length ≤ 140
      rw [List.length_take]
      omega
    | none =>
      show ((normalize_space f.fullText).take 140).length ≤ 140
      rw [List.length_take]
      omega
  · intro h
    unfold extract_title_from_html
    rw [findFirstTitle_none f titleTags h]

/-- A fragment with no findable elements, for the C10 witness. -/
def fragW : Frag := ⟨fun _ => none, "some page text".toList⟩

/-- Witness for C10 at a concrete input. -/
theorem extract_title_len_witness :
    (extract_title_from_html fragW).length ≤ 140 ∧
      extract_title_from_html fragW = (normalize_space fragW.fullText).take 140 :=
  ⟨(extract_title_len fragW).1,
    (extract_title_len fragW).2 (fun tg _ e he => by simp [fragW] at he)⟩

/-! ### Request orchestration (the `/search` endpoint)

External collaborators are modelled inside `Env`: `fetch_html` may fail
(`FetchError`); the Pinecone index is modelled as a list of stored records
whose query ranking is abstracted by store order, with injectable failures
for `index.query` (`queryErr`, per site/top-k) and for embedding + upsert
(`upsertErr`, per page URL); BeautifulSoup parsing is abstracted by the
`Html` and `Frag` views of a document.  The sha256 chunk id is modelled by
the injective pair `(page_url, index)`.  A run returns the response (or
the propagated exception), the final store, and the trace of performed
fetch/upsert effects.
-/

/-- Modelled exception classes. -/
inductive Err
  | fetchErr
  | storeErr
  | otherErr
deriving DecidableEq

/-- One candidate content element (`section/article/div/p/li`): its inner
markup and its rendered plain text `get_text(" ", strip=True)`. -/
structure HBlock where
  innerHtml : Str
  text : Str

/-- A parsed page, as read by the source after the
`script/style/noscript` removal: anchors hrefs in document order, the
canonical link href, the candidate blocks, and the whole-page text. -/
structure Html where
  anchors : List Str
  canonical : Option Str
  blocks : List HBlock
  pageText : Str

/-- Source `clean_html_and_get_dom_chunks`: keep each candidate block
whose text is non-empty and longer than 20 characters (when its
normalized inner markup is non-empty); if none qualify, fall back to the
normalized whole-page text, or nothing when the page has no text. -/
def clean_html_and_get_dom_chunks (h : Html) : List Str :=
  let out := h.blocks.foldr (fun b acc =>
    if b.text ≠ [] ∧ 20 < b.text.length then
      (if normalize_space b.innerHtml ≠ [] then normalize_space b.innerHtml :: acc else acc)
    else acc) []
  if out = [] then (if h.pageText ≠ [] then [normalize_space h.pageText] else []) else out

/-- Source `detect_page_path`: prefer the canonical link (if present with a
non-empty href), else the raw URL path; `or "/"` on an empty path. -/
def detect_page_path (M : UrlModel) (url : Str) (h : Html) : Str :=
  match h.canonical with
  | some href =>
    if href ≠ [] then
      (if (M.urlparse (M.urljoin url href)).path = [] then "/".toList
       else (M.urlparse (M.urljoin url href)).path)
    else (if (M.urlparse url).path = [] then "/".toList else (M.urlparse url).path)
  | none => if (M.urlparse url).path = [] then "/".toList else (M.urlparse url).path

/-- A stored chunk record (the id `sha256(page_url#i)[:40]` is modelled by
the injective pair `(page_url, i)`). -/
structure StoredRec where
  recId : Str × Nat
  siteId : Str
  pageUrl : Str
  path : Str
  chunkHtml : Str
  title : Str
deriving DecidableEq

/-- The vector store content. -/
abbrev Store := List StoredRec

/-- The external collaborators of one request. -/
structure Env where
  urlM : UrlModel
  fetch : Str → Except Err Html
  queryErr : Str → Nat → Option Err
  upsertErr : Str → Option Err
  score : StoredRec → Str → ℚ
  parseFrag : Str → Frag

/-- `CHUNK_TOKEN_LIMIT` (default configuration). -/
def CHUNK_TOKEN_LIMIT : Nat := 500

/-- `TOP_K` (default configuration). -/
def TOP_K : Nat := 10

/-- `MAX_PAGES` (default configuration). -/
def MAX_PAGES : Nat := 6

/-- `site_id = f"{u.scheme}://{u.netloc}"`. -/
def siteIdOf (M : UrlModel) (url : Str) : Str :=
  (M.urlparse url).scheme ++ "://".toList ++ (M.urlparse url).netloc

/-- The records built by `upsert_chunks` for one page. -/
def upsertRecs (env : Env) (site pageUrl path : Str) (chunks : List Str) : List StoredRec :=
  chunks.enum.map fun p =>
    ⟨(pageUrl, p.1), site, pageUrl, path, p.2, extract_title_from_html (env.parseFrag p.2)⟩

/-- The store's response to `index.query(top_k*3, filter site_id)`: the
site's records (ranking abstracted by store order), truncated to
`topk * 3`, with metadata round-tripped. -/
def storeResponse (env : Env) (σ : Store) (query site : Str) (topk : Nat) : List QMatch :=
  ((σ.filter (fun r => decide (r.siteId = site))).map fun r =>
    ⟨some (env.score r query), some ⟨some r.chunkHtml, some r.title, some r.path,
      some r.pageUrl⟩⟩).take (topk * 3)

/-- Source `search_top_k`: the store query (which may raise `StoreError`)
followed by the response post-processing. -/
def stkCall (env : Env) (σ : Store) (query site : Str) (topk : Nat) :
    Except Err (List RItem) :=
  match env.queryErr site topk with
  | some e => .error e
  | none => .ok (search_top_k_post (storeResponse env σ query site topk) topk)

/-- Observable side effects of an indexing run. -/
inductive Ev
  | startFetch
  | pageFetch (url : Str)
  | upsert (url : Str)
deriving DecidableEq

/-- The body of the per-page loop in `search` (the `try`/`except` block):
any failure is caught and the page skipped; the store is extended only
when chunks exist and the upsert succeeds. -/
def indexPage (env : Env) (reqUrl : Str) (startHtml : Html) (site : Str)
    (σ : Store) (pageUrl : Str) : Store × List Ev :=
  match (if pageUrl = reqUrl then Except.ok startHtml else env.fetch pageUrl) with
  | .error _ => (σ, [])
  | .ok html =>
    let fe : List Ev := if pageUrl = reqUrl then [] else [Ev.pageFetch pageUrl]
    let chunks := chunk_by_token_limit (clean_html_and_get_dom_chunks html) CHUNK_TOKEN_LIMIT
    if chunks ≠ [] then
      match env.upsertErr pageUrl with
      | some _ => (σ, fe)
      | none => (σ ++ upsertRecs env site pageUrl
          (detect_page_path env.urlM pageUrl html) chunks, fe ++ [Ev.upsert pageUrl])
    else (σ, fe)

/-- The events a page contributes, independent of the store contents. -/
def pageEvents (env : Env) (reqUrl : Str) (startHtml : Html) (site : Str)
    (pageUrl : Str) : List Ev :=
  (indexPage env reqUrl startHtml site [] pageUrl).2

/-- The `for page_url in urls` loop of `search`. -/
def indexLoop (env : Env) (reqUrl : Str) (startHtml : Html) (site : Str) :
    Store → List Str → Store × List Ev
  | σ, [] => (σ, [])
  | σ, p :: rest =>
    let st := indexPage env reqUrl startHtml site σ p
    let st2 := indexLoop env reqUrl startHtml site st.1 rest
    (st2.1, st.2 ++ st2.2)

/-- Outcome of one `/search` request: the response or the propagated
exception, the final store, and the effect trace. -/
structure RunOut where
  res : Except Err (List RItem)
  store : Store
  events : List Ev

/-- A `/search` request body. -/
structure Req where
  url : Str
  query : Str

/-- The probe query text (`"the"`). -/
def probeText : Str := "the".toList

/-- Source `search` endpoint: probe the site; if no chunk is found, fetch
the start page, discover same-domain links and index each page (failures
caught per page); finally run the real query.  Store errors in the probe,
the start-page fetch error, and store errors in the final query are not
caught and become the request's failure. -/
def runSearch (env : Env) (σ : Store) (req : Req) : RunOut :=
  let site := siteIdOf env.urlM req.url
  match stkCall env σ probeText site 1 with
  | .error e => ⟨.error e, σ, []⟩
  | .ok probe =>
    if probe = [] then
      match env.fetch req.url with
      | .error e => ⟨.error e, σ, []⟩
      | .ok startHtml =>
        let st := indexLoop env req.url startHtml site σ
          (same_domain_links env.urlM req.url startHtml.anchors MAX_PAGES)
        match stkCall env st.1 req.query site TOP_K with
        | .error e => ⟨.error e, st.1, Ev.startFetch :: st.2⟩
        | .ok rs => ⟨.ok rs, st.1, Ev.startFetch :: st.2⟩
    else
      match stkCall env σ req.query site TOP_K with
      | .error e => ⟨.error e, σ, []⟩
      | .ok rs => ⟨.ok rs, σ, []⟩

theorem clean_out_nil (bs : List HBlock) (h : ∀ b ∈ bs, b.text.length ≤ 20) :
    bs.foldr (fun b acc =>
      if b.text ≠ [] ∧ 20 < b.text.length then
        (if normalize_space b.innerHtml ≠ [] then normalize_space b.innerHtml :: acc else acc)
      else acc) [] = [] := by
  induction bs with
  | nil => rfl
  | cons b bs ih =>
    rw [List.foldr_cons, ih (fun x hx => h x (List.mem_cons_of_mem b hx))]
    rw [if_neg]
    intro hcon
    have := h b (List.mem_cons_self b bs)
    omega

/--
Claim C8: if no candidate content element's plain text exceeds the
20-character significance threshold, `clean_html_and_get_dom_chunks`
returns the single whitespace-normalized full-page text, or `[]` when the
page has no text; and a page whose extraction and chunking yield zero
chunks triggers no upsert (store unchanged, no upsert event) and is not an
error (the per-page loop body returns normally).
-/
theorem clean_html_fallback :
    (∀ h : Html, (∀ b ∈ h.blocks, b.text.length ≤ 20) →
      clean_html_and_get_dom_chunks h =
        if h.pageText = [] then [] else [normalize_space h.pageText]) ∧
    (∀ (env : Env) (reqUrl : Str) (startHtml : Html) (site : Str) (σ : Store)
        (pageUrl : Str) (html : Html),
      (if pageUrl = reqUrl then Except.ok startHtml else env.fetch pageUrl) = .ok html →
      chunk_by_token_limit (clean_html_and_get_dom_chunks html) CHUNK_TOKEN_LIMIT = [] →
      indexPage env reqUrl startHtml site σ pageUrl =
        (σ, if pageUrl = reqUrl then [] else [Ev.pageFetch pageUrl])) := by
  constructor
  · intro h hb
    unfold clean_html_and_get_dom_chunks
    rw [clean_out_nil h.blocks hb]
    rw [if_pos rfl]
    by_cases hp : h.pageText = []
    · rw [if_neg (by simp [hp]), if_pos hp]
    · rw [if_pos hp, if_neg hp]
  · intro env reqUrl startHtml site σ pageUrl html hfetch hchunks
    unfold indexPage
    rw [hfetch]
    simp only [hchunks, ne_eq, not_true_eq_false, if_false]

/-- A page with only short blocks and no page text, for the C8 witness. -/
def htmlW : Html := ⟨[], none, [⟨"x".toList, "short".toList⟩], []⟩

/-- A dummy environment for closed evaluations. -/
def envW : Env :=
  ⟨hostUrlModel, fun _ => .error Err.fetchErr, fun _ _ => none, fun _ => none,
    fun _ _ => 0, fun _ => fragW⟩

/-- Witness for C8 at a concrete input. -/
theorem clean_html_fallback_witness :
    ((∀ b ∈ htmlW.blocks, b.text.length ≤ 20) ∧
      clean_html_and_get_dom_chunks htmlW =
        (if htmlW.pageText = [] then [] else [normalize_space htmlW.pageText])) ∧
    (chunk_by_token_limit (clean_html_and_get_dom_chunks htmlW) CHUNK_TOKEN_LIMIT = [] ∧
      indexPage envW "u".toList htmlW "s".toList [] "u".toList =
        ([], if "u".toList = "u".toList then [] else [Ev.pageFetch "u".toList])) :=
  ⟨⟨by decide, clean_html_fallback.1 htmlW (by decide)⟩,
    ⟨rfl, clean_html_fallback.2 envW "u".toList htmlW "s".toList [] "u".toList htmlW
      rfl rfl⟩⟩

/-- When the site already has a (well-formed) chunk in the store and the
probe query itself does not fail, the probe finds a result and `search`
performs no indexing at all: the store is unchanged and no fetch or upsert
effect occurs. -/
theorem run_noop_of_site_indexed (env : Env) (σ : Store) (req : Req)
    (hq : env.queryErr (siteIdOf env.urlM req.url) 1 = none)
    (hex : ∃ r ∈ σ, r.siteId = siteIdOf env.urlM req.url ∧ r.chunkHtml ≠ [])
    (hall : ∀ r ∈ σ, r.siteId = siteIdOf env.urlM req.url → r.chunkHtml ≠ []) :
    (runSearch env σ req).store = σ ∧ (runSearch env σ req).events = [] := by
  obtain ⟨r, hrmem, hrsite, _⟩ := hex
  have hfil : r ∈ σ.filter (fun x => decide (x.siteId = siteIdOf env.urlM req.url)) :=
    List.mem_filter.mpr ⟨hrmem, by simpa using hrsite⟩
  obtain ⟨f0, fs, hF⟩ :=
    List.exists_cons_of_ne_nil (List.ne_nil_of_mem hfil)
  have hf0 : f0 ∈ σ ∧ f0.siteId = siteIdOf env.urlM req.url := by
    have : f0 ∈ σ.filter (fun x => decide (x.siteId = siteIdOf env.urlM req.url)) := by
      rw [hF]; exact List.mem_cons_self _ _
    have h2 := List.mem_filter.mp this
    exact ⟨h2.1, by simpa using h2.2⟩
  have hne0 : f0.chunkHtml ≠ [] := hall f0 hf0.1 hf0.2
  have hresp : storeResponse env σ probeText (siteIdOf env.urlM req.url) 1 =
      ⟨some (env.score f0 probeText), some ⟨some f0.chunkHtml, some f0.title, some f0.path,
        some f0.pageUrl⟩⟩ :: ((fs.map fun x =>
          (⟨some (env.score x probeText), some ⟨some x.chunkHtml, some x.title, some x.path,
            some x.pageUrl⟩⟩ : QMatch)).take 2) := by
    unfold storeResponse
    rw [hF, List.map_cons, List.take_succ_cons]
  have hhead : (toItem ⟨some (env.score f0 probeText), some ⟨some f0.chunkHtml,
      some f0.title, some f0.path, some f0.pageUrl⟩⟩).chunk_html ≠ [] := by
    simpa [toItem] using hne0
  have hprobe : search_top_k_post (storeResponse env σ probeText
      (siteIdOf env.urlM req.url) 1) 1 ≠ [] := by
    rw [hresp]
    unfold search_top_k_post
    rw [List.map_cons, dedupLoop]
    rw [if_pos ⟨List.not_mem_nil _, hhead⟩]
    rw [if_pos (by simp)]
    simp
  unfold runSearch
  simp only [stkCall, hq]
  rw [if_neg hprobe]
  cases env.queryErr (siteIdOf env.urlM req.url) TOP_K <;> exact ⟨rfl, rfl⟩

/--
Claim C4: calling the indexing path twice in succession for the same site
performs exactly one indexing pass: once any (well-formed, non-empty)
chunk exists in the store for the site after the first call, the probe of
the second call finds it, and the second call performs no fetching,
chunking, or upserting (empty effect trace) and leaves the store
unchanged.  (The probe query itself is assumed not to raise a store
error.)
-/
theorem indexing_idempotent (env : Env) (σ : Store) (req : Req)
    (hq : env.queryErr (siteIdOf env.urlM req.url) 1 = none)
    (hex : ∃ r ∈ (runSearch env σ req).store,
      r.siteId = siteIdOf env.urlM req.url ∧ r.chunkHtml ≠ [])
    (hall : ∀ r ∈ (runSearch env σ req).store,
      r.siteId = siteIdOf env.urlM req.url → r.chunkHtml ≠ []) :
    (runSearch env (runSearch env σ req).store req).store = (runSearch env σ req).store ∧
    (runSearch env (runSearch env σ req).store req).events = [] :=
  run_noop_of_site_indexed env (runSearch env σ req).store req hq hex hall

/-- A stored chunk of the example site, for the C4 witness. -/
def recW : StoredRec :=
  ⟨("https://e.com/p".toList, 0), "https://e.com".toList, "https://e.com/p".toList,
    "/".toList, "x".toList, "t".toList⟩

/-- The example request. -/
def reqW : Req := ⟨"https://e.com".toList, "q".toList⟩

/-- Witness for C4 at a concrete input: the store already holds a chunk of
the site, so the second call is a no-op. -/
theorem indexing_idempotent_witness :
    envW.queryErr (siteIdOf envW.urlM reqW.url) 1 = none ∧
    (∃ r ∈ (runSearch envW [recW] reqW).store,
      r.siteId = siteIdOf envW.urlM reqW.url ∧ r.chunkHtml ≠ []) ∧
    (runSearch envW (runSearch envW [recW] reqW).store reqW).events = [] :=
  ⟨rfl, by decide,
    (indexing_idempotent envW [recW] reqW rfl (by decide) (by decide)).2⟩

/-- A page with one long content block (produces one chunk). -/
def htmlC : Html :=
  ⟨[], none, [⟨"hello wonderful world of content".toList,
    "hello wonderful world of content".toList⟩], "hello".toList⟩

/-- Environment whose store rejects every upsert with a store error. -/
def envC3 : Env :=
  ⟨hostUrlModel, fun _ => .ok htmlC, fun _ _ => none, fun _ => some Err.storeErr,
    fun _ _ => 0, fun _ => fragW⟩

/--
Claim C3 counterexample: a store failure while upserting the start page's
chunks inside the per-page loop is caught by the blanket `except` handler:
the request does NOT fail — it returns an ok (empty) result and the store
is left unchanged, even though the upsert raised a store error and the
page did produce chunks.
-/
theorem upsert_error_swallowed_cex :
    envC3.upsertErr "https://e.com".toList = some Err.storeErr ∧
    chunk_by_token_limit (clean_html_and_get_dom_chunks htmlC) CHUNK_TOKEN_LIMIT ≠ [] ∧
    (runSearch envC3 [] reqW).res = .ok [] ∧
    (runSearch envC3 [] reqW).store = [] := by
  refine ⟨rfl, by decide, rfl, rfl⟩

/--
Claim C3 amended: store errors raised by the index queries are not
recovered: a probe-query failure makes the whole request fail with that
error, and a final-query failure likewise; but a store failure during the
per-page upsert happens inside the per-page `try`/`except` and is caught:
the page is skipped and the request still succeeds (no hypothesis below
constrains `upsertErr`).
-/
theorem store_error_propagation :
    (∀ (env : Env) (σ : Store) (req : Req) (e : Err),
      env.queryErr (siteIdOf env.urlM req.url) 1 = some e →
      runSearch env σ req = ⟨.error e, σ, []⟩) ∧
    (∀ (env : Env) (σ : Store) (req : Req) (e : Err) (probe : List RItem),
      stkCall env σ probeText (siteIdOf env.urlM req.url) 1 = .ok probe →
      probe ≠ [] →
      env.queryErr (siteIdOf env.urlM req.url) TOP_K = some e →
      (runSearch env σ req).res = .error e) ∧
    (∀ (env : Env) (σ : Store) (req : Req) (startHtml : Html),
      stkCall env σ probeText (siteIdOf env.urlM req.url) 1 = .ok [] →
      env.fetch req.url = .ok startHtml →
      env.queryErr (siteIdOf env.urlM req.url) TOP_K = none →
      ∃ rs, (runSearch env σ req).res = .ok rs) := by
  refine ⟨?_, ?_, ?_⟩
  · intro env σ req e hq
    unfold runSearch
    simp only [stkCall, hq]
  · intro env σ req e probe hp hne hq
    simp only [runSearch]
    rw [hp]
    simp only [if_neg hne, stkCall, hq]
  · intro env σ req startHtml hp hf hq
    simp only [runSearch]
    rw [hp]
    simp only [if_pos rfl, hf, stkCall, hq]
    exact ⟨_, rfl⟩

/-- Environment whose index queries always fail with a store error. -/
def envQ : Env :=
  ⟨hostUrlModel, fun _ => .error Err.fetchErr, fun _ _ => some Err.storeErr,
    fun _ => none, fun _ _ => 0, fun _ => fragW⟩

/-- Witness for the amended C3 at concrete inputs: a failing probe query
fails the request; with queries healthy, a failing upsert does not. -/
theorem store_error_propagation_witness :
    (envQ.queryErr (siteIdOf envQ.urlM reqW.url) 1 = some Err.storeErr ∧
      runSearch envQ [] reqW = ⟨.error Err.storeErr, [], []⟩) ∧
    (stkCall envC3 [] probeText (siteIdOf envC3.urlM reqW.url) 1 = .ok [] ∧
      envC3.fetch reqW.url = .ok htmlC ∧
      envC3.queryErr (siteIdOf envC3.urlM reqW.url) TOP_K = none ∧
      ∃ rs, (runSearch envC3 [] reqW).res = .ok rs) :=
  ⟨⟨rfl, store_error_propagation.1 envQ [] reqW Err.storeErr rfl⟩,
    ⟨rfl, rfl, rfl,
      store_error_propagation.2.2 envC3 [] reqW htmlC rfl rfl rfl⟩⟩

/-- A page's events do not depend on the store contents: fetching,
extraction, chunking and the upsert outcome are store-independent. -/
theorem indexPage_events_store_indep (env : Env) (reqUrl : Str) (startHtml : Html)
    (site : Str) (σ : Store) (pageUrl : Str) :
    (indexPage env reqUrl startHtml site σ pageUrl).2 =
      pageEvents env reqUrl startHtml site pageUrl := by
  unfold pageEvents indexPage
  cases hf : (if pageUrl = reqUrl then Except.ok startHtml else env.fetch pageUrl) with
  | error e => rfl
  | ok html =>
    simp only []
    by_cases hch : chunk_by_token_limit (clean_html_and_get_dom_chunks html)
        CHUNK_TOKEN_LIMIT ≠ []
    · rw [if_pos hch, if_pos hch]
      cases env.upsertErr pageUrl <;> rfl
    · rw [if_neg hch, if_neg hch]

/-- The indexing loop's event trace is the concatenation of the per-page
traces: each page is processed independently of the others' outcomes. -/
theorem indexLoop_events (env : Env) (reqUrl : Str) (startHtml : Html) (site : Str) :
    ∀ (urls : List Str) (σ : Store),
      (indexLoop env reqUrl startHtml site σ urls).2 =
        (urls.map (pageEvents env reqUrl startHtml site)).flatten := by
  intro urls
  induction urls with
  | nil => intro σ; rfl
  | cons p rest ih =>
    intro σ
    rw [indexLoop]
    simp only [List.map_cons, List.flatten_cons]
    rw [indexPage_events_store_indep, ih]

/--
Claim C7: a failure to fetch the start page itself is not caught: the
request fails with that error (no page was processed).  Per-page failures
inside the loop are caught: whenever the probe is empty, the start fetch
succeeds and the final query does not fail, the request succeeds, and its
effect trace is the concatenation of the per-page traces of all
discovered URLs — a fetch or extraction failure on one page only makes
that page's trace empty and leaves every other page's processing intact.
-/
theorem per_page_failure_isolation :
    (∀ (env : Env) (σ : Store) (req : Req) (e : Err),
      stkCall env σ probeText (siteIdOf env.urlM req.url) 1 = .ok [] →
      env.fetch req.url = .error e →
      runSearch env σ req = ⟨.error e, σ, []⟩) ∧
    (∀ (env : Env) (σ : Store) (req : Req) (startHtml : Html),
      stkCall env σ probeText (siteIdOf env.urlM req.url) 1 = .ok [] →
      env.fetch req.url = .ok startHtml →
      env.queryErr (siteIdOf env.urlM req.url) TOP_K = none →
      (∃ rs, (runSearch env σ req).res = .ok rs) ∧
      (runSearch env σ req).events = Ev.startFetch ::
        ((same_domain_links env.urlM req.url startHtml.anchors MAX_PAGES).map
          (pageEvents env req.url startHtml (siteIdOf env.urlM req.url))).flatten) := by
  constructor
  · intro env σ req e hp hf
    simp only [runSearch]
    rw [hp]
    simp only [if_pos rfl, if_true, hf]
  · intro env σ req startHtml hp hf hq
    simp only [runSearch]
    rw [hp]
    simp only [if_pos rfl, if_true, hf, stkCall, hq]
    exact ⟨⟨_, rfl⟩, by rw [indexLoop_events]⟩

/-- Start page of the C7 witness: one long content block and a link to a
second page whose fetch will fail. -/
def htmlC7 : Html :=
  ⟨["https://e.com/b".toList], none,
    [⟨"hello wonderful world of content".toList,
      "hello wonderful world of content".toList⟩], "hello".toList⟩

/-- Environment for the C7 witness: only the start page fetch succeeds. -/
def envC7 : Env :=
  ⟨hostUrlModel,
    fun u => if u = "https://e.com".toList then .ok htmlC7 else .error Err.fetchErr,
    fun _ _ => none, fun _ => none, fun _ _ => 0, fun _ => fragW⟩

/-- Witness for C7 at concrete inputs: a start-fetch failure fails the
request; a linked page's fetch failure leaves the run successful. -/
theorem per_page_failure_isolation_witness :
    (stkCall envW [] probeText (siteIdOf envW.urlM reqW.url) 1 = .ok [] ∧
      envW.fetch reqW.url = .error Err.fetchErr ∧
      runSearch envW [] reqW = ⟨.error Err.fetchErr, [], []⟩) ∧
    (stkCall envC7 [] probeText (siteIdOf envC7.urlM reqW.url) 1 = .ok [] ∧
      envC7.fetch reqW.url = .ok htmlC7 ∧
      envC7.fetch "https://e.com/b".toList = .error Err.fetchErr ∧
      ∃ rs, (runSearch envC7 [] reqW).res = .ok rs) :=
  ⟨⟨rfl, rfl, per_page_failure_isolation.1 envW [] reqW Err.fetchErr rfl rfl⟩,
    ⟨rfl, rfl, rfl,
      (per_page_failure_isolation.2 envC7 [] reqW htmlC7 rfl rfl rfl).1⟩⟩
